import Mathlib

/-!
Verification of the arm64 alternative runtime patching engine
(arch/arm64/kernel/alternative.c).

The embedding models `unsigned long` arithmetic as natural numbers reduced
mod 2^64, `s32` values as integers obtained by interpreting the low 32 bits
of a 64-bit value as a two's-complement signed number, and memory as a byte
map `Nat -> Nat`.  The instruction codec (aarch64_insn_*) and the kernel
address classifiers (kernel_text_address, core_kernel_data, cpus_have_cap,
lm_alias) are external collaborators of this file's code, so they are
parameters of the embedding.  A fatal BUG()/BUG_ON() path is modelled by
returning `none`.
-/

namespace Alternative

/-- Modulus of `unsigned long` (64-bit) arithmetic. -/
def U64 : Nat := 2 ^ 64

/-- Modulus of 32-bit arithmetic. -/
def U32 : Nat := 2 ^ 32

/-- C truncation of a 64-bit unsigned value to `s32`: keep the low 32 bits
and interpret them as a two's-complement signed number. -/
def toS32 (n : Nat) : Int :=
  if n % U32 < 2 ^ 31 then ((n % U32 : Nat) : Int)
  else ((n % U32 : Nat) : Int) - (U32 : Int)

/-- `unsigned long + signed offset`, wrapping mod 2^64
(e.g. `target = (unsigned long)altinsnptr + offset`). -/
def addS (a : Nat) (off : Int) : Nat :=
  ((((a : Int) + off) % (U64 : Int))).toNat

/-- `unsigned long - unsigned long`, wrapping mod 2^64
(e.g. `target - (unsigned long)insnptr`). -/
def subU (a b : Nat) : Nat :=
  ((((a : Int) - (b : Int)) % (U64 : Int))).toNat

/-- `align_down(x, a)` = `x & ~(a - 1)`; for the power-of-two alignments the
source uses this equals clearing the remainder mod `a`. -/
def align_down (x a : Nat) : Nat := x - x % a

/-- `SZ_4K`. -/
def SZ_4K : Nat := 4096

/-- The aarch64 instruction codec consumed by the relocator
(`aarch64_insn_is_branch_imm`, `aarch64_get_branch_offset`, ...), an
external collaborator operating on 32-bit encoded words. -/
structure Codec where
  is_branch_imm : Nat → Bool
  get_branch_offset : Nat → Int
  set_branch_offset : Nat → Int → Nat
  is_adrp : Nat → Bool
  adrp_get_offset : Nat → Int
  adrp_set_offset : Nat → Int → Nat
  is_adr : Nat → Bool
  adr_get_offset : Nat → Int
  uses_literal : Nat → Bool

/-- The kernel-side address/capability classifiers consumed by the engine:
`kernel_text_address`, `core_kernel_data`, `cpus_have_cap` and the linear
alias mapping `lm_alias`, all external collaborators. -/
structure Oracle where
  kernel_text_address : Nat → Bool
  core_kernel_data : Nat → Bool
  cpus_have_cap : Nat → Bool
  lm_alias : Nat → Nat

/-- One `struct alt_instr` patch-site descriptor.  The source stores the two
code addresses as self-relative offsets (`ALT_ORIG_PTR`/`ALT_REPL_PTR`
macros); the embedding carries the resulting absolute addresses directly. -/
structure AltInstr where
  origptr : Nat
  replptr : Nat
  cpufeature : Nat
  orig_len : Nat
  alt_len : Nat
deriving DecidableEq

/-- `address_needs_relocation_fixup`: decide whether `addr` needs a
relocation fixup when the alt sequence of `alt` is moved.  `some true` =
fixup needed, `some false` = no fixup, `none` = BUG(). -/
def address_needs_relocation_fixup (O : Oracle) (alt : AltInstr) (addr : Nat) :
    Option Bool :=
  if O.kernel_text_address addr || O.core_kernel_data addr then
    some true
  else if alt.replptr ≤ addr ∧ addr ≤ (alt.replptr + alt.alt_len) % U64 then
    some false
  else
    none

/-- `get_alt_insn`: relocate one replacement instruction.  `insnptr` is the
final (original-block) address, `altinsnptr` the replacement-block address,
`insn` the 32-bit word read from the replacement block.  `none` = BUG(). -/
def get_alt_insn (C : Codec) (O : Oracle) (alt : AltInstr)
    (insnptr altinsnptr : Nat) (insn : Nat) : Option Nat :=
  if C.is_branch_imm insn then
    let offset := C.get_branch_offset insn
    let target := addS altinsnptr offset
    match address_needs_relocation_fixup O alt target with
    | none => none
    | some true =>
        some (C.set_branch_offset insn (toS32 (subU target insnptr)))
    | some false => some insn
  else if C.is_adrp insn then
    let orig_offset := C.adrp_get_offset insn
    let target := addS (align_down altinsnptr SZ_4K) orig_offset
    match address_needs_relocation_fixup O alt target with
    | none => none
    | some true =>
        some (C.adrp_set_offset insn
          (toS32 (subU target (align_down insnptr SZ_4K))))
    | some false => some insn
  else if C.is_adr insn then
    let offset := C.adr_get_offset insn
    let target := addS altinsnptr offset
    match address_needs_relocation_fixup O alt target with
    | none => none
    | some true => none
    | some false => some insn
  else if C.uses_literal insn then
    none
  else
    some insn

/-- Byte-addressed memory. -/
def Mem : Type := Nat → Nat

/-- Store one byte. -/
def write8 (m : Mem) (a v : Nat) : Mem :=
  fun x => if x = a then v % 256 else m x

/-- Store a 32-bit word little-endian (arm64 is little-endian, so
`cpu_to_le32` is the identity on the value). -/
def write32 (m : Mem) (a v : Nat) : Mem :=
  write8 (write8 (write8 (write8 m a v) (a + 1) (v / 256)) (a + 2)
    (v / 256 ^ 2)) (a + 3) (v / 256 ^ 3)

/-- Load a 32-bit word little-endian (`le32_to_cpu(*p)`). -/
def read32 (m : Mem) (a : Nat) : Nat :=
  m a + 256 * m (a + 1) + 256 ^ 2 * m (a + 2) + 256 ^ 3 * m (a + 3)

/-- The inner loop of `__apply_alternatives`: starting at slot `i` with `n`
slots left, read the replacement word at `replptr + 4*i`, relocate it with
`get_alt_insn` (final address `origptr + 4*i`), and store it at
`updptr + 4*i`.  `none` = some slot hit a BUG(). -/
def patchInsns (C : Codec) (O : Oracle) (alt : AltInstr)
    (origptr replptr updptr : Nat) : Nat → Nat → Mem → Option Mem
  | _, 0, m => some m
  | i, n + 1, m =>
      match get_alt_insn C O alt (origptr + 4 * i) (replptr + 4 * i)
          (read32 m (replptr + 4 * i)) with
      | none => none
      | some insn =>
          patchInsns C O alt origptr replptr updptr (i + 1) n
            (write32 m (updptr + 4 * i) insn)

/-- Destination pointer of one site: `use_linear_alias ? lm_alias(origptr)
: origptr`. -/
def updptrOf (O : Oracle) (use_linear_alias : Bool) (alt : AltInstr) : Nat :=
  if use_linear_alias then O.lm_alias alt.origptr else alt.origptr

/-- The icache flush range recorded for one applied site:
`flush_icache_range(origptr, origptr + nr_inst)` on `__le32 *`, i.e. the
byte range `[origptr, origptr + 4 * (alt_len / 4))`. -/
def flushOf (alt : AltInstr) : Nat × Nat :=
  (alt.origptr, alt.origptr + 4 * (alt.alt_len / 4))

/-- One iteration of the `__apply_alternatives` site loop: skip the site if
its capability is absent, BUG_ON a length mismatch, otherwise rewrite all
`alt_len / 4` instruction slots and record the icache flush.  Returns the
new memory and the list of flush ranges performed (empty when skipped). -/
def applyOne (C : Codec) (O : Oracle) (use_linear_alias : Bool) (m : Mem)
    (alt : AltInstr) : Option (Mem × List (Nat × Nat)) :=
  if ¬ O.cpus_have_cap alt.cpufeature then some (m, [])
  else if alt.alt_len ≠ alt.orig_len then none
  else
    match patchInsns C O alt alt.origptr alt.replptr
        (updptrOf O use_linear_alias alt) 0 (alt.alt_len / 4) m with
    | none => none
    | some mFinal => some (mFinal, [flushOf alt])

/-- `__apply_alternatives` over a region given as the list of its
`alt_instr` entries; threads memory through the sites and concatenates the
flush ranges in order. -/
def apply_alternatives (C : Codec) (O : Oracle) (use_linear_alias : Bool) :
    List AltInstr → Mem → Option (Mem × List (Nat × Nat))
  | [], m => some (m, [])
  | alt :: rest, m =>
      match applyOne C O use_linear_alias m alt with
      | none => none
      | some (mNext, fl) =>
          match apply_alternatives C O use_linear_alias rest mNext with
          | none => none
          | some (mFinal, flRest) => some (mFinal, fl ++ flRest)

/-- The process-wide patch state: the `static int patched` flag of
`__apply_alternatives_multi_stop`. -/
structure GlobalPatchState where
  patched : Bool

/-- The designated-core (CPU 0) branch of `__apply_alternatives_multi_stop`:
`BUG_ON(patched)`, then `__apply_alternatives(&region, true)`, then
`WRITE_ONCE(patched, 1)`.  `none` = BUG. -/
def multi_stop_designated (C : Codec) (O : Oracle) (region : List AltInstr)
    (st : GlobalPatchState) (m : Mem) :
    Option (GlobalPatchState × Mem × List (Nat × Nat)) :=
  if st.patched then none
  else
    match apply_alternatives C O true region m with
    | none => none
    | some (mFinal, fl) => some (⟨true⟩, mFinal, fl)

/-!
Operational model of the whole-image multi-core pass
(`__apply_alternatives_multi_stop` under `stop_machine`): a
sequentially-consistent interleaving of the designated core's program
(patch+flush each site in order, then `WRITE_ONCE(patched, 1)`) with the
secondary cores' program (`while (!READ_ONCE(patched)) cpu_relax(); isb();`).
Sequential consistency reflects the ordering guarantee the spec requires of
the platform (the flag write becomes visible only after the preceding
flushes).
-/

/-- Where a secondary core stands in its polling protocol. -/
inductive Phase
  | spinning
  | observed
  | proceeded
deriving DecidableEq

/-- Global state of the multi-core pass: the `patched` flag, the sites the
designated core still has to process, the sites it has already flushed (in
order), and each of the `n` secondary cores' phase. -/
structure SysState (n : Nat) where
  patched : Bool
  pending : List AltInstr
  flushed : List AltInstr
  phase : Fin n → Phase

/-- Interleaving semantics of the multi-core pass. -/
inductive Step (O : Oracle) : {n : Nat} → SysState n → SysState n → Prop
  | patch_site {n : Nat} (s : SysState n) (alt : AltInstr)
      (rest : List AltInstr) :
      s.pending = alt :: rest →
      Step O s { s with
        pending := rest,
        flushed := if O.cpus_have_cap alt.cpufeature then s.flushed ++ [alt]
                   else s.flushed }
  | publish {n : Nat} (s : SysState n) :
      s.pending = [] → s.patched = false →
      Step O s { s with patched := true }
  | observe {n : Nat} (s : SysState n) (i : Fin n) :
      s.phase i = Phase.spinning → s.patched = true →
      Step O s { s with phase := Function.update s.phase i Phase.observed }
  | isb {n : Nat} (s : SysState n) (i : Fin n) :
      s.phase i = Phase.observed →
      Step O s { s with phase := Function.update s.phase i Phase.proceeded }

/-- Initial state of the multi-core pass: flag clear, nothing flushed, the
whole region pending, every secondary core spinning. -/
def initState (n : Nat) (region : List AltInstr) : SysState n :=
  ⟨false, region, [], fun _ => Phase.spinning⟩

/-- Reachability under the interleaving semantics. -/
def Reachable (O : Oracle) {n : Nat} (region : List AltInstr)
    (s : SysState n) : Prop :=
  Relation.ReflTransGen (Step O) (initState n region) s

/-- Invariant of the multi-core pass: the flag is published only once the
work list is empty, the flush trace matches the consumed prefix of the
region, and a core leaves the spin loop only after the flag is set. -/
def C9Inv (O : Oracle) (region : List AltInstr) {n : Nat}
    (s : SysState n) : Prop :=
  (s.patched = true → s.pending = [])
  ∧ (∃ done, region = done ++ s.pending
      ∧ s.flushed = done.filter (fun alt => O.cpus_have_cap alt.cpufeature))
  ∧ (∀ i, s.phase i ≠ Phase.spinning → s.patched = true)

/-!  Concrete fixtures used by the witness theorems. -/

/-- A concrete instruction codec for witnesses: word `w` has kind `w / 2^32`
(1 = branch-imm, 2 = adrp, 3 = adr, 4 = literal-user, otherwise none) and
carries its signed offset in the low 32 bits. -/
def testCodec : Codec where
  is_branch_imm w := w / U32 = 1
  get_branch_offset w := toS32 w
  set_branch_offset w o := w / U32 * U32 + (o.emod (U32 : Int)).toNat
  is_adrp w := w / U32 = 2
  adrp_get_offset w := toS32 w
  adrp_set_offset w o := w / U32 * U32 + (o.emod (U32 : Int)).toNat
  is_adr w := w / U32 = 3
  adr_get_offset w := toS32 w
  uses_literal w := w / U32 = 4

/-- A concrete oracle for witnesses: kernel text is [4096, 8192), core
kernel data is [16384, 20480), every capability below 10 is present, and
the linear alias shifts addresses up by 2^20. -/
def testOracle : Oracle where
  kernel_text_address a := decide (4096 ≤ a ∧ a < 8192)
  core_kernel_data a := decide (16384 ≤ a ∧ a < 20480)
  cpus_have_cap c := decide (c < 10)
  lm_alias a := a + 2 ^ 20

/-- An oracle whose kernel-text region overlaps the replacement block of
`textAlt`, used to exhibit the known-region/in-block precedence. -/
def overlapOracle : Oracle where
  kernel_text_address a := decide (a = 200)
  core_kernel_data _ := false
  cpus_have_cap _ := true
  lm_alias a := a

/-- A site whose replacement block [200, 208] sits partly in
`overlapOracle`'s kernel text. -/
def textAlt : AltInstr := ⟨100, 200, 0, 8, 8⟩

/-- All-zero memory fixture. -/
def zeroMem : Mem := fun _ => 0

/-- A site whose capability (0) is present under `testOracle`: original
block at 64, replacement block at 128, both 8 bytes (2 instructions). -/
def appliedAlt : AltInstr := ⟨64, 128, 0, 8, 8⟩

/-- A site whose capability (50) is absent under `testOracle`; its lengths
deliberately disagree to exhibit that skipped sites are never
length-checked. -/
def skipAlt : AltInstr := ⟨1000, 2000, 50, 8, 4⟩

/-- A capability-present site with mismatched lengths, hitting the
`BUG_ON(alt->alt_len != alt->orig_len)` check. -/
def badAlt : AltInstr := ⟨64, 128, 0, 8, 4⟩

/-- Final state of a concrete run of the multi-core pass on one site with
one secondary core: site patched and flushed, flag published, the
secondary core has observed the flag and executed its barrier. -/
def c9sFin : SysState 1 :=
  ⟨true, [], [appliedAlt],
    Function.update (Function.update (fun _ => Phase.spinning) 0 Phase.observed)
      0 Phase.proceeded⟩

/-!  Helper lemmas. -/

/-- Wrapped arithmetic stays below 2^64. -/
theorem addS_lt (a : Nat) (o : Int) : addS a o < U64 := by
  unfold addS
  have h1 : (0 : Int) < (U64 : Int) := by unfold U64; positivity
  have h2 := Int.emod_lt_of_pos ((a : Int) + o) h1
  omega

/-- Adding back an exact signed difference recovers the target address. -/
theorem addS_cancel (a b : Nat) (h : b < U64) :
    addS a ((b : Int) - (a : Int)) = b := by
  unfold addS
  have h1 : (a : Int) + ((b : Int) - (a : Int)) = (b : Int) := by ring
  rw [h1, Int.emod_eq_of_lt (by positivity) (by exact_mod_cast h)]
  simp

/-- A no-fixup verdict only arises from the in-block test. -/
theorem fixup_some_false_elim (O : Oracle) (alt : AltInstr) (addr : Nat)
    (h : address_needs_relocation_fixup O alt addr = some false) :
    alt.replptr ≤ addr ∧ addr ≤ (alt.replptr + alt.alt_len) % U64 := by
  unfold address_needs_relocation_fixup at h
  by_cases h1 : O.kernel_text_address addr || O.core_kernel_data addr
  · simp [h1] at h
  · by_cases h2 : alt.replptr ≤ addr ∧ addr ≤ (alt.replptr + alt.alt_len) % U64
    · exact h2
    · simp [h1, h2] at h

/-- Case analysis of the needs-relocation decision: known-region first,
then the closed in-block span, otherwise fatal. -/
theorem fixup_cases (O : Oracle) (alt : AltInstr) (addr : Nat) :
    ((O.kernel_text_address addr || O.core_kernel_data addr) = true →
      address_needs_relocation_fixup O alt addr = some true)
    ∧ ((O.kernel_text_address addr || O.core_kernel_data addr) = false →
        alt.replptr ≤ addr → addr ≤ (alt.replptr + alt.alt_len) % U64 →
        address_needs_relocation_fixup O alt addr = some false)
    ∧ ((O.kernel_text_address addr || O.core_kernel_data addr) = false →
        ¬ (alt.replptr ≤ addr ∧ addr ≤ (alt.replptr + alt.alt_len) % U64) →
        address_needs_relocation_fixup O alt addr = none) := by
  unfold address_needs_relocation_fixup
  refine ⟨fun h => ?_, fun h h1 h2 => ?_, fun h hn => ?_⟩
  · simp [h]
  · simp [h, h1, h2]
  · simp [h, hn]

/-- A 32-bit store leaves every byte outside its 4-byte window alone. -/
theorem write32_outside (m : Mem) (a v x : Nat) (h : x < a ∨ a + 4 ≤ x) :
    write32 m a v x = m x := by
  unfold write32 write8
  rw [if_neg (by omega), if_neg (by omega), if_neg (by omega),
    if_neg (by omega)]

/-- Reading back a 32-bit store returns the stored word reduced mod 2^32. -/
theorem read32_write32 (m : Mem) (a v : Nat) :
    read32 (write32 m a v) a = v % U32 := by
  unfold read32 write32 write8 U32
  rw [if_neg (by omega), if_neg (by omega), if_neg (by omega), if_pos rfl,
    if_neg (by omega), if_neg (by omega), if_pos rfl,
    if_neg (by omega), if_pos rfl, if_pos rfl]
  omega

/-- A 32-bit store does not change a 32-bit load from a disjoint window. -/
theorem read32_write32_outside (m : Mem) (a v x : Nat)
    (h : x + 4 ≤ a ∨ a + 4 ≤ x) :
    read32 (write32 m a v) x = read32 m x := by
  unfold read32
  rw [write32_outside _ _ _ _ (by omega), write32_outside _ _ _ _ (by omega),
    write32_outside _ _ _ _ (by omega), write32_outside _ _ _ _ (by omega)]

/-- The instruction-patching loop writes nothing outside
[updptr + 4*i, updptr + 4*(i+n)). -/
theorem patchInsns_frame (C : Codec) (O : Oracle) (alt : AltInstr)
    (origptr replptr updptr : Nat) :
    ∀ (n i : Nat) (m mFin : Mem),
      patchInsns C O alt origptr replptr updptr i n m = some mFin →
      ∀ a, (a < updptr + 4 * i ∨ updptr + 4 * (i + n) ≤ a) →
        mFin a = m a := by
  intro n
  induction n with
  | zero =>
      intro i m mFin h a _
      simp only [patchInsns] at h
      cases h
      rfl
  | succ k ih =>
      intro i m mFin h a ha
      simp only [patchInsns] at h
      rcases hg : get_alt_insn C O alt (origptr + 4 * i) (replptr + 4 * i)
          (read32 m (replptr + 4 * i)) with _ | insn
      · rw [hg] at h
        exact absurd h (by simp)
      · rw [hg] at h
        simp only [] at h
        have h2 := ih (i + 1) _ mFin h a (by omega)
        rw [h2, write32_outside _ _ _ _ (by omega)]

/-- A capability-absent site is skipped outright: memory and flush trace
are untouched, and its lengths are never compared. -/
theorem applyOne_skip (C : Codec) (O : Oracle) (ula : Bool) (m : Mem)
    (alt : AltInstr) (h : O.cpus_have_cap alt.cpufeature = false) :
    applyOne C O ula m alt = some (m, []) := by
  unfold applyOne
  simp [h]

/-- A capability-present site with a length mismatch hits the BUG_ON. -/
theorem applyOne_mismatch (C : Codec) (O : Oracle) (ula : Bool) (m : Mem)
    (alt : AltInstr) (hc : O.cpus_have_cap alt.cpufeature = true)
    (hl : alt.alt_len ≠ alt.orig_len) :
    applyOne C O ula m alt = none := by
  unfold applyOne
  simp [hc, hl]

/-- Unfolding of `applyOne` for a capability-present, length-checked
site. -/
theorem applyOne_applied (C : Codec) (O : Oracle) (ula : Bool) (m : Mem)
    (alt : AltInstr) (hc : O.cpus_have_cap alt.cpufeature = true)
    (hl : alt.alt_len = alt.orig_len) :
    applyOne C O ula m alt =
      match patchInsns C O alt alt.origptr alt.replptr
          (updptrOf O ula alt) 0 (alt.alt_len / 4) m with
      | none => none
      | some mFinal => some (mFinal, [flushOf alt]) := by
  unfold applyOne
  simp [hc, hl]

/-- One applied site writes nothing outside its destination window. -/
theorem applyOne_frame (C : Codec) (O : Oracle) (ula : Bool) (m : Mem)
    (alt : AltInstr) (mFin : Mem) (fl : List (Nat × Nat))
    (h : applyOne C O ula m alt = some (mFin, fl)) :
    ∀ a, ¬ (updptrOf O ula alt ≤ a
        ∧ a < updptrOf O ula alt + 4 * (alt.alt_len / 4)) →
      mFin a = m a := by
  intro a ha
  by_cases hc : O.cpus_have_cap alt.cpufeature
  · by_cases hl : alt.alt_len = alt.orig_len
    · rw [applyOne_applied C O ula m alt hc hl] at h
      rcases hp : patchInsns C O alt alt.origptr alt.replptr
          (updptrOf O ula alt) 0 (alt.alt_len / 4) m with _ | m1
      · rw [hp] at h
        exact absurd h (by simp)
      · rw [hp] at h
        simp only [Option.some.injEq, Prod.mk.injEq] at h
        rw [← h.1]
        exact patchInsns_frame C O alt alt.origptr alt.replptr
          (updptrOf O ula alt) (alt.alt_len / 4) 0 m m1 hp a (by omega)
    · rw [applyOne_mismatch C O ula m alt hc hl] at h
      exact absurd h (by simp)
  · rw [applyOne_skip C O ula m alt (by simpa using hc)] at h
    simp only [Option.some.injEq, Prod.mk.injEq] at h
    rw [← h.1]

/-- The flush trace of one site: its flush range if applied, nothing if
skipped. -/
theorem applyOne_flush (C : Codec) (O : Oracle) (ula : Bool) (m : Mem)
    (alt : AltInstr) (mFin : Mem) (fl : List (Nat × Nat))
    (h : applyOne C O ula m alt = some (mFin, fl)) :
    fl = if O.cpus_have_cap alt.cpufeature then [flushOf alt] else [] := by
  by_cases hc : O.cpus_have_cap alt.cpufeature
  · simp only [hc, if_true]
    by_cases hl : alt.alt_len = alt.orig_len
    · rw [applyOne_applied C O ula m alt hc hl] at h
      rcases hp : patchInsns C O alt alt.origptr alt.replptr
          (updptrOf O ula alt) 0 (alt.alt_len / 4) m with _ | m1
      · rw [hp] at h
        exact absurd h (by simp)
      · rw [hp] at h
        simp only [Option.some.injEq, Prod.mk.injEq] at h
        exact h.2.symm
    · rw [applyOne_mismatch C O ula m alt hc hl] at h
      exact absurd h (by simp)
  · rw [applyOne_skip C O ula m alt (by simpa using hc)] at h
    simp only [Option.some.injEq, Prod.mk.injEq] at h
    simp only [hc, if_false]
    exact h.2.symm

/-- The region pass writes nothing outside the destination windows of its
capability-present sites. -/
theorem apply_alternatives_frame (C : Codec) (O : Oracle) (ula : Bool) :
    ∀ (region : List AltInstr) (m mFin : Mem) (fl : List (Nat × Nat)),
      apply_alternatives C O ula region m = some (mFin, fl) →
      ∀ a, (∀ alt ∈ region, O.cpus_have_cap alt.cpufeature = true →
          ¬ (updptrOf O ula alt ≤ a
              ∧ a < updptrOf O ula alt + 4 * (alt.alt_len / 4))) →
        mFin a = m a := by
  intro region
  induction region with
  | nil =>
      intro m mFin fl h a _
      simp only [apply_alternatives, Option.some.injEq, Prod.mk.injEq] at h
      rw [← h.1]
  | cons alt rest ih =>
      intro m mFin fl h a ha
      simp only [apply_alternatives] at h
      rcases h1 : applyOne C O ula m alt with _ | ⟨mNext, fl0⟩
      · rw [h1] at h
        exact absurd h (by simp)
      · rw [h1] at h
        simp only [] at h
        rcases h2 : apply_alternatives C O ula rest mNext with _ | ⟨mF, flR⟩
        · rw [h2] at h
          exact absurd h (by simp)
        · rw [h2] at h
          simp only [Option.some.injEq, Prod.mk.injEq] at h
          have hrest : mF a = mNext a :=
            ih mNext mF flR h2 a (fun alt1 hm hc =>
              ha alt1 (List.mem_cons_of_mem _ hm) hc)
          have hhead : mNext a = m a := by
            by_cases hc : O.cpus_have_cap alt.cpufeature
            · exact applyOne_frame C O ula m alt mNext fl0 h1 a
                (ha alt (List.mem_cons_self _ _) hc)
            · have := applyOne_skip C O ula m alt (by simpa using hc)
              rw [this] at h1
              simp only [Option.some.injEq, Prod.mk.injEq] at h1
              rw [h1.1]
          rw [← h.1, hrest, hhead]

/-- The region pass's flush trace is exactly one flush range per
capability-present site, in order. -/
theorem apply_alternatives_flushes (C : Codec) (O : Oracle) (ula : Bool) :
    ∀ (region : List AltInstr) (m mFin : Mem) (fl : List (Nat × Nat)),
      apply_alternatives C O ula region m = some (mFin, fl) →
      fl = (region.filter
        (fun alt => O.cpus_have_cap alt.cpufeature)).map flushOf := by
  intro region
  induction region with
  | nil =>
      intro m mFin fl h
      simp only [apply_alternatives, Option.some.injEq, Prod.mk.injEq] at h
      rw [← h.2]
      rfl
  | cons alt rest ih =>
      intro m mFin fl h
      simp only [apply_alternatives] at h
      rcases h1 : applyOne C O ula m alt with _ | ⟨mNext, fl0⟩
      · rw [h1] at h
        exact absurd h (by simp)
      · rw [h1] at h
        simp only [] at h
        rcases h2 : apply_alternatives C O ula rest mNext with _ | ⟨mF, flR⟩
        · rw [h2] at h
          exact absurd h (by simp)
        · rw [h2] at h
          simp only [Option.some.injEq, Prod.mk.injEq] at h
          have hfl0 := applyOne_flush C O ula m alt mNext fl0 h1
          have hflR := ih mNext mF flR h2
          rw [← h.2, hfl0, hflR]
          by_cases hc : O.cpus_have_cap alt.cpufeature
          · simp [List.filter, hc]
          · simp [List.filter, hc]

/-- Every site actually processed (not skipped) passed the length
equality check. -/
theorem apply_alternatives_lengths (C : Codec) (O : Oracle) (ula : Bool) :
    ∀ (region : List AltInstr) (m mFin : Mem) (fl : List (Nat × Nat)),
      apply_alternatives C O ula region m = some (mFin, fl) →
      ∀ alt ∈ region, O.cpus_have_cap alt.cpufeature = true →
        alt.alt_len = alt.orig_len := by
  intro region
  induction region with
  | nil =>
      intro m mFin fl _ alt hm
      exact absurd hm (by simp)
  | cons alt0 rest ih =>
      intro m mFin fl h alt hm hc
      simp only [apply_alternatives] at h
      rcases h1 : applyOne C O ula m alt0 with _ | ⟨mNext, fl0⟩
      · rw [h1] at h
        exact absurd h (by simp)
      · rw [h1] at h
        simp only [] at h
        rcases h2 : apply_alternatives C O ula rest mNext with _ | ⟨mF, flR⟩
        · rw [h2] at h
          exact absurd h (by simp)
        · rcases List.mem_cons.mp hm with heq | hmem
          · subst heq
            by_cases hl : alt.alt_len = alt.orig_len
            · exact hl
            · rw [applyOne_mismatch C O ula m alt hc hl] at h1
              exact absurd h1 (by simp)
          · exact ih mNext mF flR h2 alt hmem hc

/-- Two memories agreeing on a 4-byte window yield the same 32-bit load. -/
theorem read32_congr (m1 m2 : Mem) (a : Nat)
    (h : ∀ x, a ≤ x → x < a + 4 → m1 x = m2 x) :
    read32 m1 a = read32 m2 a := by
  unfold read32
  rw [h a (Nat.le_refl a) (by omega), h (a + 1) (by omega) (by omega),
    h (a + 2) (by omega) (by omega), h (a + 3) (by omega) (by omega)]

/-- Content of the patching loop: when the destination window does not
overlap the replacement window, every slot in [i, i+n) holds the relocated
encoding of the corresponding replacement word (mod 2^32). -/
theorem patchInsns_content (C : Codec) (O : Oracle) (alt : AltInstr)
    (origptr replptr updptr nr : Nat)
    (hsep : ∀ a, updptr ≤ a → a < updptr + 4 * nr →
      ¬ (replptr ≤ a ∧ a < replptr + 4 * nr)) :
    ∀ (n i : Nat) (m mFin : Mem), i + n ≤ nr →
      patchInsns C O alt origptr replptr updptr i n m = some mFin →
      ∀ j, i ≤ j → j < i + n →
        ∃ w, get_alt_insn C O alt (origptr + 4 * j) (replptr + 4 * j)
            (read32 m (replptr + 4 * j)) = some w
          ∧ read32 mFin (updptr + 4 * j) = w % U32 := by
  intro n
  induction n with
  | zero =>
      intro i m mFin _ _ j h1 h2
      omega
  | succ k ih =>
      intro i m mFin hle h j hij hjn
      simp only [patchInsns] at h
      rcases hg : get_alt_insn C O alt (origptr + 4 * i) (replptr + 4 * i)
          (read32 m (replptr + 4 * i)) with _ | w0
      · rw [hg] at h
        exact absurd h (by simp)
      · rw [hg] at h
        simp only [] at h
        rcases Nat.eq_or_lt_of_le hij with heq | hlt
        · subst heq
          refine ⟨w0, hg, ?_⟩
          have hfr : ∀ x, updptr + 4 * i ≤ x → x < updptr + 4 * i + 4 →
              mFin x = write32 m (updptr + 4 * i) w0 x := by
            intro x hx1 hx2
            exact patchInsns_frame C O alt origptr replptr updptr k (i + 1)
              _ mFin h x (by omega)
          rw [read32_congr _ _ _ hfr, read32_write32]
        · have hd : updptr + 4 * i + 4 ≤ replptr + 4 * j
              ∨ replptr + 4 * j + 4 ≤ updptr + 4 * i := by
            by_contra hcon
            push_neg at hcon
            by_cases hcl : updptr + 4 * i ≤ replptr + 4 * j
            · exact (hsep (replptr + 4 * j) (by omega) (by omega)) (by omega)
            · exact (hsep (updptr + 4 * i) (by omega) (by omega)) (by omega)
          obtain ⟨w, hw1, hw2⟩ := ih (i + 1)
            (write32 m (updptr + 4 * i) w0) mFin (by omega) h j (by omega)
            (by omega)
          refine ⟨w, ?_, hw2⟩
          rw [← hw1, read32_write32_outside m (updptr + 4 * i) w0
            (replptr + 4 * j) (by omega)]

/-!  Theorems for the claims. -/

/-- C1: For a relative-branch instruction in the replacement block whose
computed absolute target (replacement instruction address + embedded
offset) needs relocation, `get_alt_insn` returns the instruction re-encoded
with offset = target − final instruction address, so decoding at the final
address yields the same target as decoding at the replacement address
(round-trip), given that the recomputed offset is exactly representable as
`s32` and the codec's set/get round-trips on it. -/
theorem C1_branch_relocation_roundtrip (C : Codec) (O : Oracle)
    (alt : AltInstr) (insnptr altinsnptr insn : Nat)
    (hbr : C.is_branch_imm insn = true)
    (hfix : address_needs_relocation_fixup O alt
      (addS altinsnptr (C.get_branch_offset insn)) = some true)
    (hfit : toS32 (subU (addS altinsnptr (C.get_branch_offset insn)) insnptr)
      = ((addS altinsnptr (C.get_branch_offset insn) : Int) - (insnptr : Int)))
    (hlaw : C.get_branch_offset (C.set_branch_offset insn
        (toS32 (subU (addS altinsnptr (C.get_branch_offset insn)) insnptr)))
      = toS32 (subU (addS altinsnptr (C.get_branch_offset insn)) insnptr)) :
    get_alt_insn C O alt insnptr altinsnptr insn
      = some (C.set_branch_offset insn
          (toS32 (subU (addS altinsnptr (C.get_branch_offset insn)) insnptr)))
    ∧ addS insnptr (C.get_branch_offset (C.set_branch_offset insn
        (toS32 (subU (addS altinsnptr (C.get_branch_offset insn)) insnptr))))
      = addS altinsnptr (C.get_branch_offset insn) := by
  constructor
  · unfold get_alt_insn
    simp only [hbr, if_true, hfix]
  · rw [hlaw, hfit]
    exact addS_cancel insnptr _ (addS_lt _ _)

/-- C1 witness: a branch at replacement address 4000 with offset 96 targets
kernel text at 4096; relocated to final address 64 its offset becomes
4032, and both decodings reach 4096. -/
theorem C1_witness :
    get_alt_insn testCodec testOracle ⟨64, 4000, 0, 8, 8⟩ 64 4000 (U32 + 96)
      = some (testCodec.set_branch_offset (U32 + 96)
          (toS32 (subU (addS 4000 (testCodec.get_branch_offset (U32 + 96))) 64)))
    ∧ addS 64 (testCodec.get_branch_offset (testCodec.set_branch_offset
        (U32 + 96)
        (toS32 (subU (addS 4000 (testCodec.get_branch_offset (U32 + 96))) 64))))
      = addS 4000 (testCodec.get_branch_offset (U32 + 96)) :=
  C1_branch_relocation_roundtrip testCodec testOracle ⟨64, 4000, 0, 8, 8⟩
    64 4000 (U32 + 96) (by decide) (by decide) (by decide) (by decide)

/-- C2 counterexample: address 200 lies inside textAlt's replacement span
[200, 208] and is kernel text under overlapOracle; the function demands
relocation (`some true`), it does not return the no-relocation verdict the
claim promises for every in-span address. -/
theorem C2_counterexample :
    textAlt.replptr ≤ 200
    ∧ 200 ≤ (textAlt.replptr + textAlt.alt_len) % U64
    ∧ overlapOracle.kernel_text_address 200 = true
    ∧ address_needs_relocation_fixup overlapOracle textAlt 200 = some true := by
  refine ⟨by decide, by decide, by decide, ?_⟩
  unfold address_needs_relocation_fixup
  simp [overlapOracle]

/-- C2 (amended): the known-region test takes precedence — an address in
kernel text or core kernel data always needs relocation, even inside the
replacement block's span; an address outside the known regions gets the
no-relocation verdict exactly when it lies in the block's closed span
[replptr, replptr + alt_len]; every other address is fatal. -/
theorem C2_needs_relocation_cases (O : Oracle) (alt : AltInstr) (addr : Nat) :
    ((O.kernel_text_address addr || O.core_kernel_data addr) = true →
      address_needs_relocation_fixup O alt addr = some true)
    ∧ ((O.kernel_text_address addr || O.core_kernel_data addr) = false →
        alt.replptr ≤ addr → addr ≤ (alt.replptr + alt.alt_len) % U64 →
        address_needs_relocation_fixup O alt addr = some false)
    ∧ ((O.kernel_text_address addr || O.core_kernel_data addr) = false →
        ¬ (alt.replptr ≤ addr ∧ addr ≤ (alt.replptr + alt.alt_len) % U64) →
        address_needs_relocation_fixup O alt addr = none) :=
  fixup_cases O alt addr

/-- C2 witness: address 204 sits in the span of the block at [200, 208] and
outside every known region, so the amended rule yields `some false`; 4096
is kernel text, so it yields `some true`; 9000 is neither, so it is
fatal. -/
theorem C2_witness :
    address_needs_relocation_fixup testOracle textAlt 204 = some false
    ∧ address_needs_relocation_fixup testOracle textAlt 4096 = some true
    ∧ address_needs_relocation_fixup testOracle textAlt 9000 = none := by
  refine ⟨?_, ?_, ?_⟩
  · exact (C2_needs_relocation_cases testOracle textAlt 204).2.1 (by decide)
      (by decide) (by decide)
  · exact (C2_needs_relocation_cases testOracle textAlt 4096).1 (by decide)
  · exact (C2_needs_relocation_cases testOracle textAlt 9000).2.2 (by decide)
      (by decide)

/-- C3 counterexample: (a) under overlapOracle a branch at replacement
address 204 targeting 200 — strictly inside the block span [200, 208) —
is rewritten (200 is kernel text), not copied bit-identical; (b) address
208 = replptr + alt_len lies outside the half-open interval yet is treated
as internal under testOracle. -/
theorem C3_counterexample :
    (textAlt.replptr ≤ 200 ∧ 200 < textAlt.replptr + textAlt.alt_len
      ∧ get_alt_insn testCodec overlapOracle textAlt 104 204 (2 * U32 - 4)
          = some (U32 + 96)
      ∧ (2 * U32 - 4 : Nat) ≠ U32 + 96)
    ∧ (address_needs_relocation_fixup testOracle textAlt 208 = some false
      ∧ ¬ (208 < textAlt.replptr + textAlt.alt_len)) := by
  refine ⟨⟨by decide, by decide, by decide, by decide⟩, by decide, by decide⟩

/-- C3 (amended): a relative-branch instruction whose computed target lies
in the closed interval [replptr, replptr + alt_len] and outside the known
kernel regions is copied bit-identical (no relocation), and for addresses
outside the known regions exactly those in that closed interval are
treated as internal. -/
theorem C3_internal_branch_unchanged (C : Codec) (O : Oracle)
    (alt : AltInstr) (insnptr altinsnptr insn : Nat)
    (hbr : C.is_branch_imm insn = true)
    (hext : (O.kernel_text_address (addS altinsnptr (C.get_branch_offset insn))
      || O.core_kernel_data (addS altinsnptr (C.get_branch_offset insn))) = false)
    (hlo : alt.replptr ≤ addS altinsnptr (C.get_branch_offset insn))
    (hhi : addS altinsnptr (C.get_branch_offset insn)
      ≤ (alt.replptr + alt.alt_len) % U64) :
    get_alt_insn C O alt insnptr altinsnptr insn = some insn
    ∧ ∀ addr : Nat,
        (O.kernel_text_address addr || O.core_kernel_data addr) = false →
        (address_needs_relocation_fixup O alt addr = some false ↔
          (alt.replptr ≤ addr ∧ addr ≤ (alt.replptr + alt.alt_len) % U64)) := by
  constructor
  · have hfix := (fixup_cases O alt
      (addS altinsnptr (C.get_branch_offset insn))).2.1 hext hlo hhi
    unfold get_alt_insn
    simp only [hbr, if_true, hfix]
  · intro addr hknown
    constructor
    · exact fixup_some_false_elim O alt addr
    · intro hin
      exact (fixup_cases O alt addr).2.1 hknown hin.1 hin.2

/-- C3 witness: a branch at replacement address 200 with offset 4 targets
204 inside the block span and outside the known regions, so it is copied
bit-identical; the boundary address 208 is classified internal. -/
theorem C3_witness :
    get_alt_insn testCodec testOracle textAlt 100 200 (U32 + 4) = some (U32 + 4)
    ∧ address_needs_relocation_fixup testOracle textAlt 208 = some false := by
  have h := C3_internal_branch_unchanged testCodec testOracle textAlt 100 200
    (U32 + 4) (by decide) (by decide) (by decide) (by decide)
  exact ⟨h.1, (h.2 208 (by decide)).mpr (by decide)⟩

/-- C4: for a page-relative address load (adrp) the target is
align_down(replacement address, 4096) + embedded page offset; when
relocation is needed the instruction is re-encoded with new offset =
target − align_down(final address, 4096) (given the offset is exactly
representable as s32), and when it is not needed the encoding is returned
unchanged. -/
theorem C4_adrp_relocation (C : Codec) (O : Oracle) (alt : AltInstr)
    (insnptr altinsnptr insn : Nat)
    (hnb : C.is_branch_imm insn = false)
    (hadrp : C.is_adrp insn = true)
    (hfit : toS32 (subU (addS (align_down altinsnptr SZ_4K)
        (C.adrp_get_offset insn)) (align_down insnptr SZ_4K))
      = ((addS (align_down altinsnptr SZ_4K) (C.adrp_get_offset insn) : Int)
          - (align_down insnptr SZ_4K : Int))) :
    (address_needs_relocation_fixup O alt
        (addS (align_down altinsnptr SZ_4K) (C.adrp_get_offset insn)) = some true →
      get_alt_insn C O alt insnptr altinsnptr insn
        = some (C.adrp_set_offset insn
            ((addS (align_down altinsnptr SZ_4K) (C.adrp_get_offset insn) : Int)
              - (align_down insnptr SZ_4K : Int))))
    ∧ (address_needs_relocation_fixup O alt
        (addS (align_down altinsnptr SZ_4K) (C.adrp_get_offset insn)) = some false →
      get_alt_insn C O alt insnptr altinsnptr insn = some insn) := by
  constructor
  · intro hfix
    unfold get_alt_insn
    simp only [hnb, Bool.false_eq_true, if_false, hadrp, if_true, hfix, hfit]
  · intro hfix
    unfold get_alt_insn
    simp only [hnb, Bool.false_eq_true, if_false, hadrp, if_true, hfix]

/-- C4 witness: an adrp at replacement address 5000 (page base 4096) with
page offset 100 targets kernel text at 4196 and is re-encoded for final
address 64 (page base 0) with offset 4196; an adrp at replacement address
200 targeting 204 inside its own block is returned unchanged. -/
theorem C4_witness :
    get_alt_insn testCodec testOracle ⟨64, 5000, 0, 8, 8⟩ 64 5000 (2 * U32 + 100)
      = some (testCodec.adrp_set_offset (2 * U32 + 100)
          ((addS (align_down 5000 SZ_4K)
              (testCodec.adrp_get_offset (2 * U32 + 100)) : Int)
            - (align_down 64 SZ_4K : Int)))
    ∧ get_alt_insn testCodec testOracle textAlt 100 200 (2 * U32 + 204)
      = some (2 * U32 + 204) := by
  constructor
  · exact (C4_adrp_relocation testCodec testOracle ⟨64, 5000, 0, 8, 8⟩ 64 5000
      (2 * U32 + 100) (by decide) (by decide) (by decide)).1 (by decide)
  · exact (C4_adrp_relocation testCodec testOracle textAlt 100 200
      (2 * U32 + 204) (by decide) (by decide) (by decide)).2 (by decide)

/-- C7 counterexample: an adr in the last slot (replacement address 204,
offset 4) targets 208 = replptr + alt_len — outside the half-open block
[200, 208) — and 208 is in no known region, yet the closed-interval
in-block test classifies it internal and the instruction is silently
passed through unchanged instead of aborting. -/
theorem C7_counterexample :
    addS 204 (testCodec.adr_get_offset (3 * U32 + 4)) = 208
    ∧ ¬ (208 < textAlt.replptr + textAlt.alt_len)
    ∧ (testOracle.kernel_text_address 208
        || testOracle.core_kernel_data 208) = false
    ∧ get_alt_insn testCodec testOracle textAlt 104 204 (3 * U32 + 4)
      = some (3 * U32 + 4) := by decide

/-- C7 (amended): an adr (byte-relative address load) whose computed
target lies outside the closed span [replptr, replptr + alt_len] is
fatal — whether the target is a recognized external region or
undecidable — while a boundary target at replptr + alt_len outside the
known regions is passed through unchanged; and an instruction using a
PC-relative literal (that is none of the handled kinds) is fatal
unconditionally. -/
theorem C7_adr_literal_fatal (C : Codec) (O : Oracle) (alt : AltInstr)
    (insnptr altinsnptr insn : Nat) :
    (C.is_branch_imm insn = false → C.is_adrp insn = false →
      C.is_adr insn = true →
      ¬ (alt.replptr ≤ addS altinsnptr (C.adr_get_offset insn)
          ∧ addS altinsnptr (C.adr_get_offset insn)
            ≤ (alt.replptr + alt.alt_len) % U64) →
      get_alt_insn C O alt insnptr altinsnptr insn = none)
    ∧ (C.is_branch_imm insn = false → C.is_adrp insn = false →
       C.is_adr insn = false → C.uses_literal insn = true →
       get_alt_insn C O alt insnptr altinsnptr insn = none) := by
  constructor
  · intro hnb hnadrp hadr hout
    unfold get_alt_insn
    rcases hfix : address_needs_relocation_fixup O alt
        (addS altinsnptr (C.adr_get_offset insn)) with _ | b
    · simp only [hnb, Bool.false_eq_true, if_false, hnadrp, hadr, if_true, hfix]
    · cases b
      · exact absurd (fixup_some_false_elim O alt _ hfix) hout
      · simp only [hnb, Bool.false_eq_true, if_false, hnadrp, hadr, if_true, hfix]
  · intro hnb hnadrp hnadr hlit
    unfold get_alt_insn
    simp only [hnb, hnadrp, hnadr, Bool.false_eq_true, if_false, hlit, if_true]

/-- C7 witness: an adr at replacement address 300 targeting 316 — outside
textAlt's block [200, 208] and outside every known region — is fatal, and
a literal-using instruction is fatal outright. -/
theorem C7_witness :
    get_alt_insn testCodec testOracle textAlt 100 300 (3 * U32 + 16) = none
    ∧ get_alt_insn testCodec testOracle textAlt 100 300 (4 * U32) = none := by
  constructor
  · exact (C7_adr_literal_fatal testCodec testOracle textAlt 100 300
      (3 * U32 + 16)).1 (by decide) (by decide) (by decide) (by decide)
  · exact (C7_adr_literal_fatal testCodec testOracle textAlt 100 300
      (4 * U32)).2 (by decide) (by decide) (by decide) (by decide)

/-- C5: a site whose capability is absent is left alone by the region pass:
its original-range bytes are unchanged (given the applied sites' write
windows do not overlap it), the flush trace contains only the applied
sites' ranges, and the skipped site is never length-checked (it is skipped
successfully whatever its lengths, touching neither memory nor the flush
trace). -/
theorem C5_skipped_site_untouched (C : Codec) (O : Oracle) (ula : Bool)
    (region : List AltInstr) (m mFin : Mem) (fl : List (Nat × Nat))
    (alt0 : AltInstr)
    (hmem : alt0 ∈ region)
    (hcap : O.cpus_have_cap alt0.cpufeature = false)
    (happ : apply_alternatives C O ula region m = some (mFin, fl))
    (hdisj : ∀ alt ∈ region, O.cpus_have_cap alt.cpufeature = true →
      ∀ a, alt0.origptr ≤ a → a < alt0.origptr + alt0.orig_len →
        ¬ (updptrOf O ula alt ≤ a
            ∧ a < updptrOf O ula alt + 4 * (alt.alt_len / 4))) :
    (∀ a, alt0.origptr ≤ a → a < alt0.origptr + alt0.orig_len →
      mFin a = m a)
    ∧ fl = (region.filter
        (fun alt => O.cpus_have_cap alt.cpufeature)).map flushOf
    ∧ applyOne C O ula m alt0 = some (m, []) :=
  ⟨fun a h1 h2 => apply_alternatives_frame C O ula region m mFin fl happ a
      (fun alt hm hc => hdisj alt hm hc a h1 h2),
    apply_alternatives_flushes C O ula region m mFin fl happ,
    applyOne_skip C O ula m alt0 hcap⟩

/-- C5 witness: with skipAlt (capability absent, lengths even mismatched)
followed by appliedAlt, the pass leaves skipAlt's bytes at 1000..1007
equal to the original zero memory and flushes only appliedAlt's range. -/
theorem C5_witness :
    (apply_alternatives testCodec testOracle false [skipAlt, appliedAlt]
        zeroMem).map (fun r => (r.1 1000, r.1 1007, r.2))
      = some (0, 0, [(64, 72)])
    ∧ applyOne testCodec testOracle false zeroMem skipAlt
      = some (zeroMem, []) := by
  rcases happ : apply_alternatives testCodec testOracle false
      [skipAlt, appliedAlt] zeroMem with _ | ⟨mFin, fl⟩
  · have hs : (apply_alternatives testCodec testOracle false
        [skipAlt, appliedAlt] zeroMem).isSome = true := by rfl
    rw [happ] at hs
    exact absurd hs (by simp)
  · have h := C5_skipped_site_untouched testCodec testOracle false
      [skipAlt, appliedAlt] zeroMem mFin fl skipAlt (by simp) (by decide)
      happ (by
        intro alt hm hc a h1 h2
        rcases List.mem_cons.mp hm with rfl | hm2
        · exact absurd hc (by decide)
        · rcases List.mem_cons.mp hm2 with rfl | hm3
          · intro hcon
            rw [show updptrOf testOracle false appliedAlt = 64 from rfl,
              show appliedAlt.alt_len = 8 from rfl] at hcon
            rw [show skipAlt.origptr = 1000 from rfl] at h1
            rw [show skipAlt.origptr = 1000 from rfl,
              show skipAlt.orig_len = 8 from rfl] at h2
            omega
          · exact absurd hm3 (by simp))
    refine ⟨?_, h.2.2⟩
    have e1 : mFin 1000 = 0 := by
      rw [h.1 1000 (by decide) (by decide)]
      rfl
    have e2 : mFin 1007 = 0 := by
      rw [h.1 1007 (by decide) (by decide)]
      rfl
    have e3 : fl = [(64, 72)] := by
      rw [h.2.1]
      rfl
    simp only [Option.map_some', e1, e2, e3]

/-- C6: a capability-present site whose replacement length differs from
its original length makes the applier abort (before touching any memory:
the verdict is `none` for every starting memory), and every site of a
successfully applied region with its capability present has equal
lengths. -/
theorem C6_length_invariant (C : Codec) (O : Oracle) (ula : Bool) (m : Mem)
    (alt : AltInstr) (region : List AltInstr) (mFin : Mem)
    (fl : List (Nat × Nat)) :
    (O.cpus_have_cap alt.cpufeature = true → alt.alt_len ≠ alt.orig_len →
      applyOne C O ula m alt = none)
    ∧ (apply_alternatives C O ula region m = some (mFin, fl) →
       ∀ alt1 ∈ region, O.cpus_have_cap alt1.cpufeature = true →
         alt1.alt_len = alt1.orig_len) :=
  ⟨fun hc hl => applyOne_mismatch C O ula m alt hc hl,
    fun happ alt1 hm hc =>
      apply_alternatives_lengths C O ula region m mFin fl happ alt1 hm hc⟩

/-- C6 witness: badAlt (capability present, alt_len 4 ≠ orig_len 8) is
fatal, and appliedAlt in a successfully applied region has equal
lengths. -/
theorem C6_witness :
    applyOne testCodec testOracle false zeroMem badAlt = none
    ∧ appliedAlt.alt_len = appliedAlt.orig_len := by
  rcases happ : apply_alternatives testCodec testOracle false [appliedAlt]
      zeroMem with _ | ⟨mFin, fl⟩
  · have hs : (apply_alternatives testCodec testOracle false [appliedAlt]
        zeroMem).isSome = true := by rfl
    rw [happ] at hs
    exact absurd hs (by simp)
  · have h := C6_length_invariant testCodec testOracle false zeroMem badAlt
      [appliedAlt] mFin fl
    exact ⟨h.1 (by decide) (by decide),
      h.2 happ appliedAlt (by simp) (by decide)⟩

/-- C10: an applied site rewrites exactly the alt_len/4 32-bit words
starting at the destination — each slot holds the relocated encoding of
the corresponding replacement word — the icache flush covers exactly
[origptr, origptr + 4*(alt_len/4)), and no byte below the destination or
at or beyond destination + 4*(alt_len/4) (in particular the trailing
alt_len mod 4 bytes) is ever written. -/
theorem C10_applied_site_extent (C : Codec) (O : Oracle) (ula : Bool)
    (m : Mem) (alt : AltInstr) (mFin : Mem) (fl : List (Nat × Nat))
    (hc : O.cpus_have_cap alt.cpufeature = true)
    (h : applyOne C O ula m alt = some (mFin, fl))
    (hsep : ∀ a, updptrOf O ula alt ≤ a →
      a < updptrOf O ula alt + 4 * (alt.alt_len / 4) →
      ¬ (alt.replptr ≤ a ∧ a < alt.replptr + 4 * (alt.alt_len / 4))) :
    fl = [(alt.origptr, alt.origptr + 4 * (alt.alt_len / 4))]
    ∧ (∀ a, a < updptrOf O ula alt → mFin a = m a)
    ∧ (∀ a, updptrOf O ula alt + 4 * (alt.alt_len / 4) ≤ a → mFin a = m a)
    ∧ (∀ j, j < alt.alt_len / 4 →
        ∃ w, get_alt_insn C O alt (alt.origptr + 4 * j) (alt.replptr + 4 * j)
            (read32 m (alt.replptr + 4 * j)) = some w
          ∧ read32 mFin (updptrOf O ula alt + 4 * j) = w % U32) := by
  by_cases hl : alt.alt_len = alt.orig_len
  · rw [applyOne_applied C O ula m alt hc hl] at h
    rcases hp : patchInsns C O alt alt.origptr alt.replptr
        (updptrOf O ula alt) 0 (alt.alt_len / 4) m with _ | m1
    · rw [hp] at h
      exact absurd h (by simp)
    · rw [hp] at h
      simp only [Option.some.injEq, Prod.mk.injEq] at h
      obtain ⟨hm, hfl⟩ := h
      rw [hm] at hp
      refine ⟨hfl.symm, ?_, ?_, ?_⟩
      · intro a ha
        exact patchInsns_frame C O alt alt.origptr alt.replptr
          (updptrOf O ula alt) (alt.alt_len / 4) 0 m mFin hp a (by omega)
      · intro a ha
        exact patchInsns_frame C O alt alt.origptr alt.replptr
          (updptrOf O ula alt) (alt.alt_len / 4) 0 m mFin hp a (by omega)
      · intro j hj
        exact patchInsns_content C O alt alt.origptr alt.replptr
          (updptrOf O ula alt) (alt.alt_len / 4) hsep (alt.alt_len / 4) 0
          m mFin (by omega) hp j (by omega) (by omega)
  · rw [applyOne_mismatch C O ula m alt hc hl] at h
    exact absurd h (by simp)

/-- C10 witness: appliedAlt (8 bytes, destination 64, source 128) flushes
exactly [64, 72), leaves bytes 63 and 72 alone, and slot 0 of the
destination holds the relocated (here: unchanged, zero) replacement
word. -/
theorem C10_witness :
    (applyOne testCodec testOracle false zeroMem appliedAlt).map
        (fun r => (r.2, r.1 63, r.1 72, read32 r.1 64))
      = some ([(64, 72)], 0, 0, 0) := by
  rcases happ : applyOne testCodec testOracle false zeroMem appliedAlt
      with _ | ⟨mFin, fl⟩
  · have hs : (applyOne testCodec testOracle false zeroMem
        appliedAlt).isSome = true := by rfl
    rw [happ] at hs
    exact absurd hs (by simp)
  · have h := C10_applied_site_extent testCodec testOracle false zeroMem
      appliedAlt mFin fl (by decide) happ (by
        intro a h1 h2
        intro hcon
        rw [show updptrOf testOracle false appliedAlt = 64 from rfl] at h1 h2
        rw [show appliedAlt.alt_len = 8 from rfl] at h2
        rw [show appliedAlt.replptr = 128 from rfl,
          show appliedAlt.alt_len = 8 from rfl] at hcon
        omega)
    have e1 : fl = [(64, 72)] := by
      rw [h.1]
      rfl
    have e2 : mFin 63 = 0 := by
      rw [h.2.1 63 (by decide)]
      rfl
    have e3 : mFin 72 = 0 := by
      rw [h.2.2.1 72 (by decide)]
      rfl
    obtain ⟨w, hw1, hw2⟩ := h.2.2.2 0 (by decide)
    have hww : w = 0 := by
      have hg : get_alt_insn testCodec testOracle appliedAlt
          (appliedAlt.origptr + 4 * 0) (appliedAlt.replptr + 4 * 0)
          (read32 zeroMem (appliedAlt.replptr + 4 * 0)) = some 0 := by rfl
      exact Option.some.inj (hw1.symm.trans hg)
    have e4 : read32 mFin 64 = 0 := by
      have : read32 mFin (updptrOf testOracle false appliedAlt + 4 * 0)
          = w % U32 := hw2
      rw [hww] at this
      exact this
    simp only [Option.map_some', e1, e2, e3, e4]

/-- C8: invoking the designated-core whole-image pass with the patched
flag already set aborts before patching anything, and a successful first
invocation publishes patched = true exactly after performing the full
region pass (same final memory and flush trace). -/
theorem C8_idempotence_guard (C : Codec) (O : Oracle)
    (region : List AltInstr) (m mFin : Mem) (stF : GlobalPatchState)
    (fl : List (Nat × Nat)) :
    multi_stop_designated C O region ⟨true⟩ m = none
    ∧ (multi_stop_designated C O region ⟨false⟩ m = some (stF, mFin, fl) →
        stF.patched = true
        ∧ apply_alternatives C O true region m = some (mFin, fl)) := by
  constructor
  · unfold multi_stop_designated
    simp
  · intro h
    unfold multi_stop_designated at h
    simp only [Bool.false_eq_true, if_false] at h
    rcases ha : apply_alternatives C O true region m with _ | ⟨m1, fl1⟩
    · rw [ha] at h
      exact absurd h (by simp)
    · rw [ha] at h
      simp only [Option.some.injEq, Prod.mk.injEq] at h
      obtain ⟨h1, h2, h3⟩ := h
      refine ⟨by rw [← h1], ?_⟩
      rw [h2, h3]


/-- C8 witness: the first designated-core invocation on one site publishes
the flag; a second invocation (flag already set) is fatal. -/
theorem C8_witness :
    (multi_stop_designated testCodec testOracle [appliedAlt] ⟨false⟩
        zeroMem).map (fun r => r.1.patched) = some true
    ∧ multi_stop_designated testCodec testOracle [appliedAlt] ⟨true⟩
        zeroMem = none := by
  rcases hm : multi_stop_designated testCodec testOracle [appliedAlt]
      ⟨false⟩ zeroMem with _ | ⟨stF, mFin, fl⟩
  · have hs : (multi_stop_designated testCodec testOracle [appliedAlt]
        ⟨false⟩ zeroMem).isSome = true := by rfl
    rw [hm] at hs
    exact absurd hs (by simp)
  · have h := C8_idempotence_guard testCodec testOracle [appliedAlt]
      zeroMem mFin stF fl
    refine ⟨?_, h.1⟩
    simp only [Option.map_some', (h.2 hm).1]

/-- The invariant holds initially. -/
theorem C9Inv_init (O : Oracle) (region : List AltInstr) (n : Nat) :
    C9Inv O region (initState n region) := by
  refine ⟨fun h => ?_, ⟨[], by simp [initState], rfl⟩, fun i h => ?_⟩
  · simp [initState] at h
  · exact absurd rfl h

/-- The invariant is preserved by every step. -/
theorem C9Inv_step (O : Oracle) (region : List AltInstr) (n : Nat)
    (s s' : SysState n) (hs : Step O s s') (hinv : C9Inv O region s) :
    C9Inv O region s' := by
  obtain ⟨h1, ⟨done, hd1, hd2⟩, h3⟩ := hinv
  cases hs with
  | patch_site alt rest hp =>
      refine ⟨fun hpt => ?_, ⟨done ++ [alt], ?_, ?_⟩, fun i hph => h3 i hph⟩
      · rw [h1 hpt] at hp
        exact absurd hp (by simp)
      · rw [hd1, hp]
        simp
      · rw [hd2]
        by_cases hcap : O.cpus_have_cap alt.cpufeature
        · simp [List.filter_append, List.filter, hcap]
        · simp [List.filter_append, List.filter, hcap]
  | publish hpend hpf =>
      exact ⟨fun _ => hpend, ⟨done, hd1, hd2⟩, fun i _ => rfl⟩
  | observe j hj hpt =>
      exact ⟨h1, ⟨done, hd1, hd2⟩, fun i _ => hpt⟩
  | isb j hj =>
      refine ⟨h1, ⟨done, hd1, hd2⟩, fun i _ => ?_⟩
      exact h3 j (by rw [hj]; simp)

/-- Every reachable state satisfies the invariant. -/
theorem C9_reachable_inv (O : Oracle) (region : List AltInstr) (n : Nat)
    (s : SysState n) (h : Reachable O region s) : C9Inv O region s := by
  unfold Reachable at h
  induction h with
  | refl => exact C9Inv_init O region n
  | tail _ hstep ih => exact C9Inv_step O region n _ _ hstep ih

/-- C9: in the sequentially-consistent interleaving model of the
multi-core pass, a secondary core leaves its spin loop only when the flag
is published, which happens only after the designated core has patched and
flushed every applicable site in the region; and no step takes a spinning
core directly to proceeded — the only path runs through the observe step
and then the instruction-barrier step. -/
theorem C9_no_core_proceeds_early (O : Oracle) (n : Nat)
    (region : List AltInstr) (s : SysState n)
    (hreach : Reachable O region s) :
    (∀ i, s.phase i ≠ Phase.spinning →
      s.patched = true ∧ s.pending = []
        ∧ s.flushed
          = region.filter (fun alt => O.cpus_have_cap alt.cpufeature))
    ∧ (∀ (t u : SysState n) (i : Fin n), Step O t u →
        t.phase i = Phase.spinning → u.phase i ≠ Phase.proceeded) := by
  constructor
  · intro i hph
    obtain ⟨h1, ⟨done, hd1, hd2⟩, h3⟩ := C9_reachable_inv O region n s hreach
    have hpt := h3 i hph
    have hpend := h1 hpt
    refine ⟨hpt, hpend, ?_⟩
    rw [hd2, hd1, hpend, List.append_nil]
  · intro t u i hs hsp
    cases hs with
    | patch_site alt rest hp =>
        show t.phase i ≠ Phase.proceeded
        rw [hsp]
        simp
    | publish hpend hpf =>
        show t.phase i ≠ Phase.proceeded
        rw [hsp]
        simp
    | observe j hj hpt =>
        show Function.update t.phase j Phase.observed i ≠ Phase.proceeded
        by_cases hij : i = j
        · subst hij
          rw [Function.update_same]
          simp
        · rw [Function.update_noteq hij]
          rw [hsp]
          simp
    | isb j hj =>
        show Function.update t.phase j Phase.proceeded i ≠ Phase.proceeded
        by_cases hij : i = j
        · subst hij
          rw [hj] at hsp
          exact absurd hsp (by simp)
        · rw [Function.update_noteq hij]
          rw [hsp]
          simp

/-- C9 witness: a concrete run with one site and one secondary core —
patch+flush, publish, observe, barrier — reaches a state where the
secondary core has proceeded, the flag is set, nothing is pending and the
applicable site was flushed. -/
theorem C9_witness :
    c9sFin.phase 0 ≠ Phase.spinning
    ∧ c9sFin.patched = true
    ∧ c9sFin.pending = []
    ∧ c9sFin.flushed
      = [appliedAlt].filter
          (fun alt => testOracle.cpus_have_cap alt.cpufeature) := by
  have h1 : Step testOracle (initState 1 [appliedAlt])
      (⟨false, [], [appliedAlt], fun _ => Phase.spinning⟩ : SysState 1) :=
    Step.patch_site (initState 1 [appliedAlt]) appliedAlt [] rfl
  have h2 : Step testOracle
      (⟨false, [], [appliedAlt], fun _ => Phase.spinning⟩ : SysState 1)
      (⟨true, [], [appliedAlt], fun _ => Phase.spinning⟩ : SysState 1) :=
    Step.publish _ rfl rfl
  have h3 : Step testOracle
      (⟨true, [], [appliedAlt], fun _ => Phase.spinning⟩ : SysState 1)
      (⟨true, [], [appliedAlt],
        Function.update (fun _ => Phase.spinning) 0 Phase.observed⟩ :
          SysState 1) :=
    Step.observe _ 0 rfl rfl
  have h4 : Step testOracle
      (⟨true, [], [appliedAlt],
        Function.update (fun _ => Phase.spinning) 0 Phase.observed⟩ :
          SysState 1) c9sFin :=
    Step.isb _ 0 (by simp)
  have hr : Reachable testOracle [appliedAlt] c9sFin :=
    Relation.ReflTransGen.tail (Relation.ReflTransGen.tail
      (Relation.ReflTransGen.tail (Relation.ReflTransGen.single h1) h2) h3) h4
  have hph : c9sFin.phase 0 ≠ Phase.spinning := by decide
  obtain ⟨hp, hpend, hfl⟩ :=
    (C9_no_core_proceeds_early testOracle 1 [appliedAlt] c9sFin hr).1 0 hph
  exact ⟨hph, hp, hpend, hfl⟩

end Alternative
